import Mathlib

/-!
Verification development for the PVRouter-3-phase repository.

This file gives a shallow embedding, in Lean, of the relay dispatch engine
(`relayOutput`, `RelayEngine` from the native relay test stubs replicating
`utils_relay.h`), the DC-offset filter simulation (`sim_processPolarity`,
`sim_processVoltage`, `sim_processMinusHalfCycle` from the native DC-offset
filter tests), the bit utilities (`utils_bits.h`), and the override-pin
configuration utilities (`PinList`, `OverridePins` from `utils_override.h`).

Machine integers are modelled as `Nat`/`Int` with explicit wraps:
`uint16_t` values wrap modulo 65536, `uint32_t` modulo 4294967296, `int16_t`
is `asInt16`/`toInt16`, `int32_t` is `asInt32`.  Mutation is modelled by
explicit state passing; C member functions returning `bool` become functions
returning a pair of the flag and the updated state.
-/

/-! ## utils_bits.h -/

/-- `bit_read` from `utils_bits.h`: `(_src >> bit) & 1`. -/
def bit_read (src : Nat) (bit : Nat) : Nat :=
  (src >>> bit) &&& 1

/-- `bit_clear` from `utils_bits.h` instantiated at `T = uint16_t`
(the type of the override bitmask): `_dest &= ~(T(1) << bit)`.
The complement of the 16-bit value `1 << bit` is `65535 ^^^ ((1 <<< bit) % 65536)`. -/
def bit_clear16 (dest : Nat) (bit : Nat) : Nat :=
  dest &&& (65535 ^^^ ((1 <<< bit) % 65536))

/-- Truncation of an integer to `int16_t` (two's complement). -/
def asInt16 (z : Int) : Int :=
  (z + 32768) % 65536 - 32768

/-- Truncation of an integer to `int32_t` (two's complement). -/
def asInt32 (z : Int) : Int :=
  (z + 2147483648) % 4294967296 - 2147483648

/-- Reinterpretation of a `uint16`-ranged value (a `Nat` below 65536,
obtained by reducing mod 65536) as `int16_t`. -/
def toInt16 (n : Nat) : Int :=
  if n % 65536 < 32768 then ((n % 65536 : Nat) : Int)
  else ((n % 65536 : Nat) : Int) - 65536

/-! ## relayOutput (test/native/test_utils_relay/test_main.cpp, replicating utils_relay.h)

Fields: `relay_pin : uint8_t`, `surplusThreshold importThreshold : int16_t`,
`minON minOFF : uint16_t`, `duration : uint16_t`, `relayIsON : bool`. -/

structure relayOutput where
  relay_pin : Nat
  surplusThreshold : Int
  importThreshold : Int
  minON : Nat
  minOFF : Nat
  duration : Nat
  relayIsON : Bool
deriving DecidableEq, Repr

/-- The `relayOutput` constructor:
`relayOutput(pin, surplus, import_, minOn, minOff) : relay_pin(pin),
surplusThreshold(-surplus), importThreshold(import_), minON(minOn * 60),
minOFF(minOff * 60)`.  The negation is truncated to `int16_t` and the
minute-to-tick products to `uint16_t`. -/
def relayOutput.make (pin : Nat) (surplus imp : Int) (minOn minOff : Nat) : relayOutput :=
  { relay_pin := pin % 256
  , surplusThreshold := asInt16 (-surplus)
  , importThreshold := imp
  , minON := minOn * 60 % 65536
  , minOFF := minOff * 60 % 65536
  , duration := 0
  , relayIsON := false }

/-- `relayOutput::try_turnON`. -/
def relayOutput.try_turnON (r : relayOutput) : Bool × relayOutput :=
  if r.relayIsON then (false, r)
  else if r.duration < r.minOFF then (false, r)
  else (true, { r with relayIsON := true, duration := 0 })

/-- `relayOutput::try_turnOFF`. -/
def relayOutput.try_turnOFF (r : relayOutput) : Bool × relayOutput :=
  if !r.relayIsON then (false, r)
  else if r.duration < r.minON then (false, r)
  else (true, { r with relayIsON := false, duration := 0 })

/-- `relayOutput::proceed_relay(currentAvgPower, overrideBitmask&)`.
Returns (state-changed flag, updated relay, updated bitmask).
The override bit is read first; if the surplus-or-override branch is taken
the bit is cleared and `try_turnON` decides the transition; otherwise an
import-side comparison (its polarity depending on the sign of
`importThreshold`) decides a `try_turnOFF`. -/
def relayOutput.proceed_relay (r : relayOutput) (currentAvgPower : Int) (overrideBitmask : Nat) :
    Bool × relayOutput × Nat :=
  if currentAvgPower < r.surplusThreshold ∨ bit_read overrideBitmask r.relay_pin ≠ 0 then
    let cleared := bit_clear16 overrideBitmask r.relay_pin
    let res := r.try_turnON
    (res.1, res.2, cleared)
  else if 0 ≤ r.importThreshold then
    if r.importThreshold < currentAvgPower then
      let res := r.try_turnOFF
      (res.1, res.2, overrideBitmask)
    else (false, r, overrideBitmask)
  else
    if currentAvgPower < -r.importThreshold then
      let res := r.try_turnOFF
      (res.1, res.2, overrideBitmask)
    else (false, r, overrideBitmask)

/-- `relayOutput::inc_duration`: `if (duration < UINT16_MAX) ++duration;`. -/
def relayOutput.inc_duration (r : relayOutput) : relayOutput :=
  if r.duration < 65535 then { r with duration := r.duration + 1 } else r

/-! ## RelayEngine (same test file) -/

/-- `EWMA_average<D>::addValue`: `average = (average * (D - 1) + value) / D`
in `int32_t` arithmetic with C truncating division. -/
def EWMA_addValue (D : Nat) (average value : Int) : Int :=
  asInt32 (Int.tdiv (asInt32 (average * ((D : Int) - 1) + value)) (D : Int))

/-- `RelayEngine<N, D>` state: the relay array, the EWMA average (`int32_t`,
returned unchanged by `getAverageT`), and the `settle_change` countdown
(`uint8_t`, seeded to 60). -/
structure RelayEngine where
  relay : List relayOutput
  average : Int
  settle_change : Nat
deriving DecidableEq, Repr

/-- `RelayEngine::update_average`. -/
def RelayEngine.update_average (D : Nat) (e : RelayEngine) (value : Int) : RelayEngine :=
  { e with average := EWMA_addValue D e.average value }

/-- `RelayEngine::inc_duration`: decrement `settle_change` toward 0 and
increment every relay's duration. -/
def RelayEngine.inc_duration (e : RelayEngine) : RelayEngine :=
  { e with
    settle_change := if 0 < e.settle_change then e.settle_change - 1 else e.settle_change
    relay := e.relay.map relayOutput.inc_duration }

/-- Ascending scan of `RelayEngine::proceed_relays` (the `else` branch:
`idx = 0; do { ... } while (++idx < N)`), stopping at the first relay whose
`proceed_relay` reports a state change.  Returns (changed, relays, bitmask). -/
def scan_relays (avg : Int) : List relayOutput → Nat → Bool × List relayOutput × Nat
  | [], bm => (false, [], bm)
  | r :: rest, bm =>
    let res := r.proceed_relay avg bm
    if res.1 then (true, res.2.1 :: rest, res.2.2)
    else
      let tail := scan_relays avg rest res.2.2
      (tail.1, res.2.1 :: tail.2.1, tail.2.2)

/-- Descending scan of `RelayEngine::proceed_relays` (the `getAverageT() > 0`
branch: `idx = N; do { ... } while (--idx, idx)` visiting indices N-1 … 0),
stopping at the first relay whose `proceed_relay` reports a state change. -/
def scan_relays_desc (avg : Int) : List relayOutput → Nat → Bool × List relayOutput × Nat
  | [], bm => (false, [], bm)
  | r :: rest, bm =>
    let tail := scan_relays_desc avg rest bm
    if tail.1 then (true, r :: tail.2.1, tail.2.2)
    else
      let res := r.proceed_relay avg tail.2.2
      (res.1, res.2.1 :: tail.2.1, res.2.2)

/-- `RelayEngine::proceed_relays(overrideBitmask&)`: no-op while
`settle_change != 0`; otherwise scan descending when the average is positive,
ascending otherwise; on a state change `settle_change` is reset to 60. -/
def RelayEngine.proceed_relays (e : RelayEngine) (overrideBitmask : Nat) : RelayEngine × Nat :=
  if e.settle_change ≠ 0 then (e, overrideBitmask)
  else if 0 < e.average then
    let res := scan_relays_desc e.average e.relay overrideBitmask
    ({ e with relay := res.2.1, settle_change := if res.1 then 60 else e.settle_change }, res.2.2)
  else
    let res := scan_relays e.average e.relay overrideBitmask
    ({ e with relay := res.2.1, settle_change := if res.1 then 60 else e.settle_change }, res.2.2)

/-! Observables used to state the scan-ordering properties. -/

/-- Default relay used only as the out-of-range fallback of `List.getD`. -/
def relayDefault : relayOutput :=
  { relay_pin := 0, surplusThreshold := 0, importThreshold := 0
  , minON := 0, minOFF := 0, duration := 0, relayIsON := false }

/-- The bitmask transformation a single `proceed_relay` call applies. -/
def prStep (avg : Int) (bm : Nat) (r : relayOutput) : Nat :=
  (r.proceed_relay avg bm).2.2

/-- Bitmask the ascending scan presents to the relay at index `k`
(the caller's bitmask threaded through the first `k` relays). -/
def bmAsc (avg : Int) (bm : Nat) (rs : List relayOutput) (k : Nat) : Nat :=
  (rs.take k).foldl (prStep avg) bm

/-- Whether the relay at index `k` reports a state change when the ascending
scan reaches it. -/
def flagAsc (avg : Int) (bm : Nat) (rs : List relayOutput) (k : Nat) : Bool :=
  ((rs.getD k relayDefault).proceed_relay avg (bmAsc avg bm rs k)).1

/-- Bitmask the descending scan presents to the relay at index `k`
(the caller's bitmask threaded through the relays above index `k`,
visited from the top down). -/
def bmDesc (avg : Int) (bm : Nat) (rs : List relayOutput) (k : Nat) : Nat :=
  ((rs.drop (k + 1)).reverse).foldl (prStep avg) bm

/-- Whether the relay at index `k` reports a state change when the descending
scan reaches it. -/
def flagDesc (avg : Int) (bm : Nat) (rs : List relayOutput) (k : Nat) : Bool :=
  ((rs.getD k relayDefault).proceed_relay avg (bmDesc avg bm rs k)).1

/-! ## DC-offset filter (test/native/test_dc_offset_filter/test_main.cpp,
simulating processing.cpp).  State: `i_DCoffset_V : uint16_t`,
`l_filterDC_V : uint32_t`, `i_sampleVminusDC : int16_t`. -/

structure DCFilter where
  i_DCoffset_V : Nat
  l_filterDC_V : Nat
  i_sampleVminusDC : Int
deriving DecidableEq, Repr

/-- `sim_processPolarity(rawSample)`:
`i_sampleVminusDC = (rawSample | 32U) - i_DCoffset_V;` — the subtraction is
performed in 32-bit unsigned arithmetic and the result truncated to
`int16_t`. -/
def sim_processPolarity (s : DCFilter) (rawSample : Nat) : DCFilter :=
  { s with i_sampleVminusDC :=
      toInt16 ((((rawSample ||| 32 : Nat) : Int) - (s.i_DCoffset_V : Int)).emod 4294967296).toNat }

/-- `sim_processVoltage()`: `l_filterDC_V += i_sampleVminusDC;` —
the signed deviation is added to the `uint32_t` accumulator modulo 2^32. -/
def sim_processVoltage (s : DCFilter) : DCFilter :=
  { s with l_filterDC_V := (((s.l_filterDC_V : Int) + s.i_sampleVminusDC).emod 4294967296).toNat }

/-- `sim_processMinusHalfCycle()`: `i_DCoffset_V = l_filterDC_V >> 15;` —
the 17-bit shift result is truncated to the `uint16_t` offset. -/
def sim_processMinusHalfCycle (s : DCFilter) : DCFilter :=
  { s with i_DCoffset_V := (s.l_filterDC_V >>> 15) % 65536 }

/-! ## OverridePins (utils_override.h) -/

/-- `OverridePins::Entry`: `pin : uint8_t`, `localBitmask : uint16_t`,
`remoteBitmask : uint8_t`. -/
structure OEntry where
  pin : Nat
  localBitmask : Nat
  remoteBitmask : Nat
deriving DecidableEq, Repr

/-- `OverridePins::getPin(index)`: `index < N ? entries_[index].pin : 0`. -/
def OverridePins.getPin (entries : List OEntry) (index : Nat) : Nat :=
  if index < entries.length then (entries.getD index ⟨0, 0, 0⟩).pin else 0

/-- `OverridePins::getLocalBitmask(index)`. -/
def OverridePins.getLocalBitmask (entries : List OEntry) (index : Nat) : Nat :=
  if index < entries.length then (entries.getD index ⟨0, 0, 0⟩).localBitmask else 0

/-- `OverridePins::getRemoteBitmask(index)`. -/
def OverridePins.getRemoteBitmask (entries : List OEntry) (index : Nat) : Nat :=
  if index < entries.length then (entries.getD index ⟨0, 0, 0⟩).remoteBitmask else 0

/-- `OverridePins::findLocalBitmask(pin)`: scan the entries in order and
return the first matching entry's local bitmask, or 0 when none matches. -/
def OverridePins.findLocalBitmask (entries : List OEntry) (pin : Nat) : Nat :=
  match entries with
  | [] => 0
  | e :: rest => if e.pin = pin then e.localBitmask else OverridePins.findLocalBitmask rest pin

/-- `OverridePins::findRemoteBitmask(pin)`. -/
def OverridePins.findRemoteBitmask (entries : List OEntry) (pin : Nat) : Nat :=
  match entries with
  | [] => 0
  | e :: rest => if e.pin = pin then e.remoteBitmask else OverridePins.findRemoteBitmask rest pin

/-! ## PinList (utils_override.h) -/

/-- First loop of `PinList::PinList(uint32_t)`: extract local pins from the
low 16 bits while `count < MaxPins` (the loop exits once capacity is hit). -/
def localPinsLoop (bitmask maxPins : Nat) : List Nat → List Nat → List Nat
  | acc, [] => acc
  | acc, pin :: rest =>
    if acc.length < maxPins then
      if bitmask &&& (1 <<< pin) ≠ 0 then localPinsLoop bitmask maxPins (acc ++ [pin]) rest
      else localPinsLoop bitmask maxPins acc rest
    else acc

/-- Second loop of `PinList::PinList(uint32_t)`: extract remote loads from
bits 16–23, storing the virtual pin `REMOTE_PIN_BASE + i = 128 + i`. -/
def remotePinsLoop (bitmask maxPins : Nat) : List Nat → List Nat → List Nat
  | acc, [] => acc
  | acc, i :: rest =>
    if acc.length < maxPins then
      if bitmask &&& (1 <<< (16 + i)) ≠ 0 then remotePinsLoop bitmask maxPins (acc ++ [128 + i]) rest
      else remotePinsLoop bitmask maxPins acc rest
    else acc

/-- `PinList::PinList(uint32_t bitmask)` for `PinList<MaxPins>`: the stored
pin array, as a list (`pins[0..count)`). -/
def PinList.ofBitmask (maxPins bitmask : Nat) : List Nat :=
  remotePinsLoop bitmask maxPins (localPinsLoop bitmask maxPins [] (List.range 16)) (List.range 8)

/-- `PinList::toLocalBitmask()`: OR of `1 << pin` over stored pins below
`REMOTE_PIN_BASE = 128`, accumulated in a `uint16_t`. -/
def PinList.toLocalBitmask (pins : List Nat) : Nat :=
  pins.foldl (fun result p => if p < 128 then (result ||| (1 <<< p)) % 65536 else result) 0

/-- `PinList::toRemoteBitmask()`: OR of `1 << (pin - 128)` over stored pins
at or above `REMOTE_PIN_BASE` whose remote index is below 8, accumulated in
a `uint8_t`. -/
def PinList.toRemoteBitmask (pins : List Nat) : Nat :=
  pins.foldl
    (fun result p =>
      if 128 ≤ p then
        if p - 128 < 8 then (result ||| (1 <<< (p - 128))) % 256 else result
      else result) 0

/-- Number of set bits among bit positions 0–23 of a bitmask
(the pins a `PinList` built from the bitmask can store). -/
def popcount24 (bitmask : Nat) : Nat :=
  ((List.range 24).filter (fun j => bitmask.testBit j)).length

/-! ## Concrete states used by counterexamples and witnesses -/

/-- Relay used by the C1 counterexample: pin 10, thresholds -500/100,
`minON = 60`, `minOFF = 120`, currently OFF for 60 ticks (one minute into a
two-minute minimum-OFF dwell, as reached 60 ticks after an ON→OFF change). -/
def rCexC1 : relayOutput :=
  { relay_pin := 10, surplusThreshold := -500, importThreshold := 100
  , minON := 60, minOFF := 120, duration := 60, relayIsON := false }

/-- Engine holding `rCexC1` with the settle timer elapsed and a mild
surplus average. -/
def eCexC1 : RelayEngine :=
  { relay := [rCexC1], average := -100, settle_change := 0 }

/-- Relay used by the C2 counterexample: stored `importThreshold = -100`
(the signed-negative convention), ON with its minimum-ON dwell elapsed. -/
def rCexC2 : relayOutput :=
  { relay_pin := 4, surplusThreshold := -500, importThreshold := -100
  , minON := 60, minOFF := 60, duration := 60, relayIsON := true }

/-- Witness relay: built like `relayOutput{4, 500, 100, 1, 1}` from the
tests, with its OFF dwell elapsed. -/
def rWitness : relayOutput :=
  { relayOutput.make 4 500 100 1 1 with duration := 60 }

/-- Witness engine: one eligible relay, surplus average, settle elapsed. -/
def eWitness : RelayEngine :=
  { relay := [rWitness], average := -600, settle_change := 0 }

/-- Witness engine for the descending scan: positive average, relay ON. -/
def eWitnessDesc : RelayEngine :=
  { relay := [{ rWitness with relayIsON := true }], average := 200, settle_change := 0 }

/-! ## Helper lemmas about single-relay transitions -/

theorem try_turnON_cases (r : relayOutput) :
    r.try_turnON = (false, r)
      ∨ (r.try_turnON = (true, { r with relayIsON := true, duration := 0 })
          ∧ r.relayIsON = false ∧ r.minOFF ≤ r.duration) := by
  unfold relayOutput.try_turnON
  by_cases h1 : r.relayIsON
  · left; simp [h1]
  · by_cases h2 : r.duration < r.minOFF
    · left; simp [h1, h2]
    · right; simp [h1, h2]; omega

theorem try_turnOFF_cases (r : relayOutput) :
    r.try_turnOFF = (false, r)
      ∨ (r.try_turnOFF = (true, { r with relayIsON := false, duration := 0 })
          ∧ r.relayIsON = true ∧ r.minON ≤ r.duration) := by
  unfold relayOutput.try_turnOFF
  by_cases h1 : r.relayIsON
  · by_cases h2 : r.duration < r.minON
    · left; simp [h1, h2]
    · right; simp [h1, h2]; omega
  · left; simp [h1]

theorem proceed_relay_cases (r : relayOutput) (avg : Int) (bm : Nat) :
    ((r.proceed_relay avg bm).1 = false ∧ (r.proceed_relay avg bm).2.1 = r)
      ∨ ((r.proceed_relay avg bm).1 = true
          ∧ (r.proceed_relay avg bm).2.1.relayIsON = !r.relayIsON
          ∧ (r.proceed_relay avg bm).2.1.duration = 0) := by
  unfold relayOutput.proceed_relay
  by_cases hbr : avg < r.surplusThreshold ∨ bit_read bm r.relay_pin ≠ 0
  · rw [if_pos hbr]
    rcases try_turnON_cases r with h | ⟨h, hoff, _⟩
    · left; simp [h]
    · right; simp [h, hoff]
  · rw [if_neg hbr]
    by_cases him : (0 : Int) ≤ r.importThreshold
    · rw [if_pos him]
      by_cases hgt : r.importThreshold < avg
      · rw [if_pos hgt]
        rcases try_turnOFF_cases r with h | ⟨h, hon, _⟩
        · left; simp [h]
        · right; simp [h, hon]
      · left; rw [if_neg hgt]; exact ⟨rfl, rfl⟩
    · rw [if_neg him]
      by_cases hlt : avg < -r.importThreshold
      · rw [if_pos hlt]
        rcases try_turnOFF_cases r with h | ⟨h, hon, _⟩
        · left; simp [h]
        · right; simp [h, hon]
      · left; rw [if_neg hlt]; exact ⟨rfl, rfl⟩

theorem proceed_relay_unchanged {r : relayOutput} {avg : Int} {bm : Nat}
    (h : (r.proceed_relay avg bm).1 = false) : (r.proceed_relay avg bm).2.1 = r := by
  rcases proceed_relay_cases r avg bm with ⟨_, h2⟩ | ⟨h1, _, _⟩
  · exact h2
  · rw [h1] at h; cases h


/-! ## C1 — override-bit clearing versus blocking -/

/-- C1 counterexample: with the settle timer elapsed, a relay whose
minimum-OFF dwell has not elapsed (duration 60 < minOFF 120) is NOT allowed
to turn on, yet a `proceed_relays` call with its override bit set clears the
bit from the caller's bitmask (1024 becomes 0) while the relay stays OFF —
refuting the claim that the bit remains set when blocked by `minOffDuration`. -/
theorem override_bit_cleared_despite_minOFF_block :
    rCexC1.duration < rCexC1.minOFF
    ∧ eCexC1.settle_change = 0
    ∧ bit_read 1024 rCexC1.relay_pin ≠ 0
    ∧ (eCexC1.proceed_relays 1024).1.relay = [rCexC1]
    ∧ (eCexC1.proceed_relays 1024).2 = 0 := by decide

/-- C1 (amended): the override bit survives only an engine-level
`settle_change` block (the whole call is a no-op on the bitmask); once a
relay's `proceed_relay` is evaluated with its bit set, the bit is cleared
unconditionally — whether or not the relay was actually allowed to turn on. -/
theorem override_bit_clearing (e : RelayEngine) (bm : Nat) (r : relayOutput) (avg : Int) :
    (e.settle_change ≠ 0 → (e.proceed_relays bm).2 = bm)
    ∧ (bit_read bm r.relay_pin ≠ 0 →
        (r.proceed_relay avg bm).2.2 = bit_clear16 bm r.relay_pin) := by
  constructor
  · intro h
    unfold RelayEngine.proceed_relays
    rw [if_pos h]
  · intro h
    unfold relayOutput.proceed_relay
    rw [if_pos (Or.inr h)]

/-- C1 witness for `override_bit_clearing` at concrete inputs. -/
theorem override_bit_clearing_witness :
    ({ relay := [rWitness], average := -600, settle_change := 10 } : RelayEngine).settle_change ≠ 0
    ∧ (RelayEngine.proceed_relays { relay := [rWitness], average := -600, settle_change := 10 } 16).2 = 16
    ∧ bit_read 1024 rCexC1.relay_pin ≠ 0
    ∧ (rCexC1.proceed_relay (-100) 1024).2.2 = bit_clear16 1024 rCexC1.relay_pin :=
  ⟨by decide,
   (override_bit_clearing { relay := [rWitness], average := -600, settle_change := 10 } 16 rCexC1 (-100)).1 (by decide),
   by decide,
   (override_bit_clearing { relay := [rWitness], average := -600, settle_change := 10 } 1024 rCexC1 (-100)).2 (by decide)⟩

/-! ## C2 — import-threshold polarity -/

/-- C2 counterexample: a relay with stored `importThreshold = -100`, ON with
its dwell elapsed, turns OFF at an averaged power of 50 — although the claim
says a negative stored threshold makes it turn OFF only once the average
exceeds `|importThreshold|` = 100. -/
theorem negative_import_threshold_counterexample :
    rCexC2.importThreshold = -100
    ∧ rCexC2.relayIsON = true
    ∧ rCexC2.minON ≤ rCexC2.duration
    ∧ (50 : Int) < 100
    ∧ (rCexC2.proceed_relay 50 0).1 = true
    ∧ (rCexC2.proceed_relay 50 0).2.1.relayIsON = false := by decide

/-- C2 (amended): for an ON relay with dwell met, not captured by the
surplus/override branch: a non-negative stored `importThreshold` turns the
relay OFF iff the average exceeds it; a negative stored `importThreshold`
flips the comparison — the relay turns OFF iff the average falls BELOW
`-importThreshold = |importThreshold|`. -/
theorem import_threshold_polarity (r : relayOutput) (avg : Int) (bm : Nat)
    (hON : r.relayIsON = true) (hs : ¬avg < r.surplusThreshold)
    (hov : bit_read bm r.relay_pin = 0) (hd : r.minON ≤ r.duration) :
    ((r.proceed_relay avg bm).1 = true
        ∧ (r.proceed_relay avg bm).2.1.relayIsON = false) ↔
      (if 0 ≤ r.importThreshold then r.importThreshold < avg else avg < -r.importThreshold) := by
  have hbr : ¬(avg < r.surplusThreshold ∨ bit_read bm r.relay_pin ≠ 0) := by
    push_neg
    exact ⟨not_lt.mp hs, hov⟩
  have hOFF : r.try_turnOFF = (true, { r with relayIsON := false, duration := 0 }) := by
    unfold relayOutput.try_turnOFF
    rw [hON]
    simp only [Bool.not_true, Bool.false_eq_true, if_false]
    rw [if_neg (Nat.not_lt.mpr hd)]
  unfold relayOutput.proceed_relay
  rw [if_neg hbr]
  by_cases him : (0 : Int) ≤ r.importThreshold
  · rw [if_pos him, if_pos him]
    by_cases hgt : r.importThreshold < avg
    · rw [if_pos hgt]
      simp [hOFF, hgt]
    · rw [if_neg hgt]
      simp [hON, hgt]
  · rw [if_neg him, if_neg him]
    by_cases hlt : avg < -r.importThreshold
    · rw [if_pos hlt]
      simp [hOFF, hlt]
    · rw [if_neg hlt]
      simp [hON, hlt]

/-- C2 witness for `import_threshold_polarity` at the concrete relay with
stored threshold -100, average 50. -/
theorem import_threshold_polarity_witness :
    rCexC2.relayIsON = true ∧ rCexC2.minON ≤ rCexC2.duration
    ∧ (((rCexC2.proceed_relay 50 0).1 = true
          ∧ (rCexC2.proceed_relay 50 0).2.1.relayIsON = false) ↔
        (if 0 ≤ rCexC2.importThreshold then rCexC2.importThreshold < 50
         else (50 : Int) < -rCexC2.importThreshold)) :=
  ⟨by decide, by decide,
   import_threshold_polarity rCexC2 50 0 (by decide) (by decide) (by decide) (by decide)⟩

/-! ## C6 — duration saturation -/

theorem inc_duration_iterate (n : Nat) : ∀ (r : relayOutput), r.duration ≤ 65535 →
    (relayOutput.inc_duration^[n] r).duration = min (r.duration + n) 65535 := by
  induction n with
  | zero =>
    intro r h
    simp only [Function.iterate_zero, id_eq]
    omega
  | succ n ih =>
    intro r h
    rw [Function.iterate_succ_apply]
    rcases Nat.lt_or_ge r.duration 65535 with hlt | hge
    · have hstep : r.inc_duration.duration = r.duration + 1 := by
        unfold relayOutput.inc_duration
        rw [if_pos hlt]
      rw [ih r.inc_duration (by omega)]
      omega
    · have hstep : r.inc_duration = r := by
        unfold relayOutput.inc_duration
        rw [if_neg (by omega)]
      rw [hstep, ih r h]
      omega

/-- C6: a relay's `duration` never decreases except on a state transition
(which resets it to 0): each `inc_duration` is monotone and saturates at
65535 (after `n` ticks from a representable duration it equals
`min (duration + n) 65535`, so 65535 + 1000 ticks from 0 leave it at 65535,
never a wrapped small value); a successful `try_turnON`/`try_turnOFF` resets
it to 0 and an unsuccessful one leaves it unchanged. -/
theorem duration_saturates (r : relayOutput) (n : Nat) (h : r.duration ≤ 65535) :
    (relayOutput.inc_duration^[n] r).duration = min (r.duration + n) 65535
    ∧ r.duration ≤ r.inc_duration.duration
    ∧ (r.try_turnON.1 = true → r.try_turnON.2.duration = 0)
    ∧ (r.try_turnOFF.1 = true → r.try_turnOFF.2.duration = 0)
    ∧ (r.try_turnON.1 = false → r.try_turnON.2.duration = r.duration)
    ∧ (r.try_turnOFF.1 = false → r.try_turnOFF.2.duration = r.duration) := by
  refine ⟨inc_duration_iterate n r h, ?_, ?_, ?_, ?_, ?_⟩
  · unfold relayOutput.inc_duration
    split <;> simp
  · rcases try_turnON_cases r with h1 | ⟨h1, _, _⟩ <;> simp [h1]
  · rcases try_turnOFF_cases r with h1 | ⟨h1, _, _⟩ <;> simp [h1]
  · rcases try_turnON_cases r with h1 | ⟨h1, _, _⟩ <;> simp [h1]
  · rcases try_turnOFF_cases r with h1 | ⟨h1, _, _⟩ <;> simp [h1]

/-- C6 witness: 65535 + 1000 = 66535 consecutive `inc_duration` calls on a
fresh relay (duration 0) leave the duration at exactly 65535. -/
theorem duration_saturates_witness :
    (relayOutput.make 11 500 100 1 1).duration ≤ 65535
    ∧ (relayOutput.inc_duration^[66535] (relayOutput.make 11 500 100 1 1)).duration = 65535 := by
  refine ⟨by decide, ?_⟩
  have h := (duration_saturates (relayOutput.make 11 500 100 1 1) 66535 (by decide)).1
  rw [h]
  decide

/-! ## C8 — deviation overflow at full-scale ADC input -/

/-- C8: at raw sample 65472 (10-bit 1023, left-aligned) with the nominal
offset 32704, the mathematical deviation (65472 | 32) - 32704 = 32800
exceeds the `int16_t` maximum 32767, and the stored deviation wraps to
-32736. -/
theorem deviation_overflow_at_full_scale :
    ((65472 ||| 32 : Nat) : Int) - 32704 = 32800
    ∧ (32767 : Int) < 32800
    ∧ (sim_processPolarity
        { i_DCoffset_V := 32704, l_filterDC_V := 1071513600, i_sampleVminusDC := 0 }
        65472).i_sampleVminusDC = -32736 := by decide

/-! ## C5 — offset / accumulator relationship -/

/-- C5 counterexample: for accumulator value 2147483648 the claimed exact
equality fails — the mathematical shift gives 65536, which does not fit the
16-bit offset; the stored offset is the truncation 0. -/
theorem q15_truncation_counterexample :
    (sim_processMinusHalfCycle
        { i_DCoffset_V := 32704, l_filterDC_V := 2147483648, i_sampleVminusDC := 0 }).i_DCoffset_V = 0
    ∧ (2147483648 : Nat) >>> 15 = 65536
    ∧ (0 : Nat) ≠ 65536 := by decide

/-- C5 (amended): immediately after every offset update the 16-bit offset
equals the low 16 bits of `accumulator >> 15`; the exact equality
`offset = accumulator >> 15` holds whenever the accumulator is below 2^31
(in particular at 0, 32768 and 1071513600), and fails at 2147483648 and
4294967295 where the shift exceeds 16 bits. -/
theorem offset_eq_accumulator_shift (s : DCFilter) :
    (sim_processMinusHalfCycle s).i_DCoffset_V = (s.l_filterDC_V >>> 15) % 65536
    ∧ (s.l_filterDC_V < 2147483648 →
        (sim_processMinusHalfCycle s).i_DCoffset_V = s.l_filterDC_V >>> 15) := by
  refine ⟨rfl, fun h => ?_⟩
  show (s.l_filterDC_V >>> 15) % 65536 = s.l_filterDC_V >>> 15
  apply Nat.mod_eq_of_lt
  have hdiv : s.l_filterDC_V >>> 15 = s.l_filterDC_V / 32768 := by
    rw [Nat.shiftRight_eq_div_pow]
  omega

/-- C5 witness for `offset_eq_accumulator_shift` at the nominal accumulator
value 1071513600 = 32704 << 15. -/
theorem offset_eq_accumulator_shift_witness :
    (1071513600 : Nat) < 2147483648
    ∧ (sim_processMinusHalfCycle
        { i_DCoffset_V := 0, l_filterDC_V := 1071513600, i_sampleVminusDC := 0 }).i_DCoffset_V
      = (1071513600 : Nat) >>> 15 :=
  ⟨by decide,
   (offset_eq_accumulator_shift
     { i_DCoffset_V := 0, l_filterDC_V := 1071513600, i_sampleVminusDC := 0 }).2 (by decide)⟩

/-! ## C9 — OverridePins accessors are total -/

theorem findLocal_eq_findEntry (entries : List OEntry) (pin : Nat) :
    OverridePins.findLocalBitmask entries pin
      = ((entries.find? fun e => e.pin == pin).map OEntry.localBitmask).getD 0 := by
  induction entries with
  | nil => rfl
  | cons e rest ih =>
    by_cases h : e.pin = pin
    · simp [OverridePins.findLocalBitmask, List.find?_cons, h]
    · simp [OverridePins.findLocalBitmask, List.find?_cons, h, ih]

theorem findRemote_eq_findEntry (entries : List OEntry) (pin : Nat) :
    OverridePins.findRemoteBitmask entries pin
      = ((entries.find? fun e => e.pin == pin).map OEntry.remoteBitmask).getD 0 := by
  induction entries with
  | nil => rfl
  | cons e rest ih =>
    by_cases h : e.pin = pin
    · simp [OverridePins.findRemoteBitmask, List.find?_cons, h]
    · simp [OverridePins.findRemoteBitmask, List.find?_cons, h, ih]

/-- C9: every `OverridePins` accessor is total and returns 0 on
out-of-range or missing queries: `getPin`, `getLocalBitmask`,
`getRemoteBitmask` return 0 for indices at or beyond the entry count and the
stored entry values below it; `findLocalBitmask`/`findRemoteBitmask` return
0 when no entry's pin matches, and the first matching entry's bitmask
otherwise. -/
theorem overridePins_total_accessors (entries : List OEntry) (index pin : Nat) :
    (entries.length ≤ index →
        OverridePins.getPin entries index = 0
        ∧ OverridePins.getLocalBitmask entries index = 0
        ∧ OverridePins.getRemoteBitmask entries index = 0)
    ∧ (index < entries.length →
        OverridePins.getPin entries index = (entries.getD index ⟨0, 0, 0⟩).pin
        ∧ OverridePins.getLocalBitmask entries index = (entries.getD index ⟨0, 0, 0⟩).localBitmask
        ∧ OverridePins.getRemoteBitmask entries index = (entries.getD index ⟨0, 0, 0⟩).remoteBitmask)
    ∧ ((∀ e ∈ entries, e.pin ≠ pin) →
        OverridePins.findLocalBitmask entries pin = 0
        ∧ OverridePins.findRemoteBitmask entries pin = 0)
    ∧ OverridePins.findLocalBitmask entries pin
        = ((entries.find? fun e => e.pin == pin).map OEntry.localBitmask).getD 0
    ∧ OverridePins.findRemoteBitmask entries pin
        = ((entries.find? fun e => e.pin == pin).map OEntry.remoteBitmask).getD 0 := by
  refine ⟨fun h => ?_, fun h => ?_, fun h => ?_, findLocal_eq_findEntry entries pin,
    findRemote_eq_findEntry entries pin⟩
  · simp [OverridePins.getPin, OverridePins.getLocalBitmask, OverridePins.getRemoteBitmask,
      Nat.not_lt.mpr h]
  · simp [OverridePins.getPin, OverridePins.getLocalBitmask, OverridePins.getRemoteBitmask, h]
  · have hnone : entries.find? (fun e => e.pin == pin) = none := by
      rw [List.find?_eq_none]
      intro e he
      simp [h e he]
    rw [findLocal_eq_findEntry, findRemote_eq_findEntry, hnone]
    exact ⟨rfl, rfl⟩

/-- C9 witness for `overridePins_total_accessors` on a concrete entry list. -/
theorem overridePins_total_accessors_witness :
    ([⟨3, 5, 7⟩, ⟨6, 9, 2⟩] : List OEntry).length ≤ 5
    ∧ OverridePins.getPin [⟨3, 5, 7⟩, ⟨6, 9, 2⟩] 5 = 0
    ∧ OverridePins.findLocalBitmask [⟨3, 5, 7⟩, ⟨6, 9, 2⟩] 6 = 9 := by
  refine ⟨by decide, ((overridePins_total_accessors [⟨3, 5, 7⟩, ⟨6, 9, 2⟩] 5 6).1 (by decide)).1, ?_⟩
  have h := (overridePins_total_accessors ([⟨3, 5, 7⟩, ⟨6, 9, 2⟩] : List OEntry) 5 6).2.2.2.1
  simpa using h

/-! ## Scan characterization lemmas (C3, C4) -/

theorem proceed_relay_flipped {r : relayOutput} {avg : Int} {bm : Nat}
    (h : (r.proceed_relay avg bm).1 = true) :
    (r.proceed_relay avg bm).2.1.relayIsON = !r.relayIsON := by
  rcases proceed_relay_cases r avg bm with ⟨h1, _⟩ | ⟨_, h2, _⟩
  · rw [h1] at h; cases h
  · exact h2

theorem bmAsc_zero (avg : Int) (bm : Nat) (rs : List relayOutput) : bmAsc avg bm rs 0 = bm := rfl

theorem bmAsc_succ_cons (avg : Int) (bm : Nat) (r : relayOutput) (rest : List relayOutput) (k : Nat) :
    bmAsc avg bm (r :: rest) (k + 1) = bmAsc avg (prStep avg bm r) rest k := by
  simp [bmAsc, List.take_succ_cons]

theorem flagAsc_zero_cons (avg : Int) (bm : Nat) (r : relayOutput) (rest : List relayOutput) :
    flagAsc avg bm (r :: rest) 0 = (r.proceed_relay avg bm).1 := rfl

theorem flagAsc_succ_cons (avg : Int) (bm : Nat) (r : relayOutput) (rest : List relayOutput) (k : Nat) :
    flagAsc avg bm (r :: rest) (k + 1) = flagAsc avg (prStep avg bm r) rest k := by
  simp [flagAsc, bmAsc_succ_cons, List.getD_cons_succ]

theorem bmDesc_succ_cons (avg : Int) (bm : Nat) (r : relayOutput) (rest : List relayOutput) (k : Nat) :
    bmDesc avg bm (r :: rest) (k + 1) = bmDesc avg bm rest k := rfl

theorem bmDesc_zero_cons (avg : Int) (bm : Nat) (r : relayOutput) (rest : List relayOutput) :
    bmDesc avg bm (r :: rest) 0 = rest.reverse.foldl (prStep avg) bm := rfl

theorem flagDesc_succ_cons (avg : Int) (bm : Nat) (r : relayOutput) (rest : List relayOutput) (k : Nat) :
    flagDesc avg bm (r :: rest) (k + 1) = flagDesc avg bm rest k := rfl

theorem flagDesc_zero_cons (avg : Int) (bm : Nat) (r : relayOutput) (rest : List relayOutput) :
    flagDesc avg bm (r :: rest) 0
      = (r.proceed_relay avg (rest.reverse.foldl (prStep avg) bm)).1 := rfl

/-- The ascending scan visits indices 0, 1, … with the caller's bitmask
threaded through the visited relays, and stops at the first index whose
`proceed_relay` reports a state change; if none does, every relay is left
unchanged and the bitmask is the full fold. -/
theorem scan_relays_spec (avg : Int) : ∀ (rs : List relayOutput) (bm : Nat),
    (scan_relays avg rs bm = (false, rs, bmAsc avg bm rs rs.length)
      ∧ ∀ k, k < rs.length → flagAsc avg bm rs k = false)
    ∨ (∃ i, i < rs.length
        ∧ (∀ j, j < i → flagAsc avg bm rs j = false)
        ∧ flagAsc avg bm rs i = true
        ∧ scan_relays avg rs bm =
            (true,
             rs.set i ((rs.getD i relayDefault).proceed_relay avg (bmAsc avg bm rs i)).2.1,
             ((rs.getD i relayDefault).proceed_relay avg (bmAsc avg bm rs i)).2.2)) := by
  intro rs
  induction rs with
  | nil =>
    intro bm
    exact Or.inl ⟨rfl, fun k hk => absurd hk (Nat.not_lt_zero k)⟩
  | cons r rest ih =>
    intro bm
    by_cases h : (r.proceed_relay avg bm).1 = true
    · right
      refine ⟨0, Nat.succ_pos _, fun j hj => absurd hj (Nat.not_lt_zero j), ?_, ?_⟩
      · simpa [flagAsc_zero_cons] using h
      · simp [scan_relays, h, bmAsc_zero, List.set_cons_zero, List.getD_cons_zero]
    · have h' : (r.proceed_relay avg bm).1 = false := by simpa using h
      have hr : (r.proceed_relay avg bm).2.1 = r := proceed_relay_unchanged h'
      rcases ih ((r.proceed_relay avg bm).2.2) with ⟨heq, hflags⟩ | ⟨i, hi, hjs, hfi, heq⟩
      · left
        constructor
        · simp [scan_relays, h', heq, hr, bmAsc_succ_cons, prStep]
        · intro k hk
          cases k with
          | zero => simpa [flagAsc_zero_cons] using h'
          | succ k =>
            rw [flagAsc_succ_cons]
            exact hflags k (by simpa using hk)
      · right
        refine ⟨i + 1, by simpa using Nat.succ_lt_succ hi, ?_, ?_, ?_⟩
        · intro j hj
          cases j with
          | zero => simpa [flagAsc_zero_cons] using h'
          | succ j =>
            rw [flagAsc_succ_cons]
            exact hjs j (by omega)
        · rw [flagAsc_succ_cons]
          exact hfi
        · simp [scan_relays, h', heq, hr, List.set_cons_succ, List.getD_cons_succ,
            bmAsc_succ_cons, prStep]

/-- The descending scan visits indices N-1, N-2, … with the caller's bitmask
threaded through the visited (higher) relays, and stops at the first index
(counting from the top) whose `proceed_relay` reports a state change; if
none does, every relay is left unchanged and the bitmask is the full
reverse fold. -/
theorem scan_relays_desc_spec (avg : Int) : ∀ (rs : List relayOutput) (bm : Nat),
    (scan_relays_desc avg rs bm = (false, rs, rs.reverse.foldl (prStep avg) bm)
      ∧ ∀ k, k < rs.length → flagDesc avg bm rs k = false)
    ∨ (∃ i, i < rs.length
        ∧ (∀ j, i < j → j < rs.length → flagDesc avg bm rs j = false)
        ∧ flagDesc avg bm rs i = true
        ∧ scan_relays_desc avg rs bm =
            (true,
             rs.set i ((rs.getD i relayDefault).proceed_relay avg (bmDesc avg bm rs i)).2.1,
             ((rs.getD i relayDefault).proceed_relay avg (bmDesc avg bm rs i)).2.2)) := by
  intro rs
  induction rs with
  | nil =>
    intro bm
    exact Or.inl ⟨rfl, fun k hk => absurd hk (Nat.not_lt_zero k)⟩
  | cons r rest ih =>
    intro bm
    rcases ih bm with ⟨heq, hflags⟩ | ⟨i, hi, hjs, hfi, heq⟩
    · by_cases h : (r.proceed_relay avg (rest.reverse.foldl (prStep avg) bm)).1 = true
      · right
        refine ⟨0, Nat.succ_pos _, ?_, ?_, ?_⟩
        · intro j h0j hj
          cases j with
          | zero => exact absurd h0j (Nat.lt_irrefl 0)
          | succ j =>
            rw [flagDesc_succ_cons]
            exact hflags j (by simpa using hj)
        · simpa [flagDesc_zero_cons] using h
        · simp [scan_relays_desc, heq, h, bmDesc_zero_cons, List.set_cons_zero,
            List.getD_cons_zero, -List.foldl_reverse]
      · have h' : (r.proceed_relay avg (rest.reverse.foldl (prStep avg) bm)).1 = false := by
          simpa using h
        have hr := proceed_relay_unchanged h'
        left
        constructor
        · simp [scan_relays_desc, heq, h', hr, List.reverse_cons, List.foldl_append, prStep,
            -List.foldl_reverse]
        · intro k hk
          cases k with
          | zero => simpa [flagDesc_zero_cons] using h'
          | succ k =>
            rw [flagDesc_succ_cons]
            exact hflags k (by simpa using hk)
    · right
      refine ⟨i + 1, by simpa using Nat.succ_lt_succ hi, ?_, ?_, ?_⟩
      · intro j hij hj
        cases j with
        | zero => exact absurd hij (Nat.not_lt_zero _)
        | succ j =>
          rw [flagDesc_succ_cons]
          exact hjs j (by omega) (by simpa using hj)
      · rw [flagDesc_succ_cons]
        exact hfi
      · simp [scan_relays_desc, heq, List.set_cons_succ, List.getD_cons_succ, bmDesc_succ_cons]

/-! ## C3 — dispatch ordering -/

/-- C3: with the settle timer elapsed, a non-positive EWMA average makes
`proceed_relays` scan relays in ascending index order, stopping at the first
relay whose proceed check changes state (every lower index refused, every
other relay untouched); a positive average makes it scan in descending index
order, stopping at the first change from the top (every higher index
refused, every other relay untouched).  In both cases the returned bitmask
and changed relay are exactly those produced by the stopping relay's check. -/
theorem proceed_relays_scan_ordering (e : RelayEngine) (bm : Nat) (hs : e.settle_change = 0) :
    (e.average ≤ 0 →
        ((e.proceed_relays bm).1.relay = e.relay
          ∧ (e.proceed_relays bm).2 = bmAsc e.average bm e.relay e.relay.length
          ∧ ∀ k, k < e.relay.length → flagAsc e.average bm e.relay k = false)
        ∨ (∃ i, i < e.relay.length
            ∧ (∀ j, j < i → flagAsc e.average bm e.relay j = false)
            ∧ flagAsc e.average bm e.relay i = true
            ∧ (e.proceed_relays bm).1.relay
                = e.relay.set i ((e.relay.getD i relayDefault).proceed_relay e.average
                    (bmAsc e.average bm e.relay i)).2.1
            ∧ (e.proceed_relays bm).2
                = ((e.relay.getD i relayDefault).proceed_relay e.average
                    (bmAsc e.average bm e.relay i)).2.2))
    ∧ (0 < e.average →
        ((e.proceed_relays bm).1.relay = e.relay
          ∧ (e.proceed_relays bm).2 = e.relay.reverse.foldl (prStep e.average) bm
          ∧ ∀ k, k < e.relay.length → flagDesc e.average bm e.relay k = false)
        ∨ (∃ i, i < e.relay.length
            ∧ (∀ j, i < j → j < e.relay.length → flagDesc e.average bm e.relay j = false)
            ∧ flagDesc e.average bm e.relay i = true
            ∧ (e.proceed_relays bm).1.relay
                = e.relay.set i ((e.relay.getD i relayDefault).proceed_relay e.average
                    (bmDesc e.average bm e.relay i)).2.1
            ∧ (e.proceed_relays bm).2
                = ((e.relay.getD i relayDefault).proceed_relay e.average
                    (bmDesc e.average bm e.relay i)).2.2)) := by
  constructor
  · intro ha
    have hnot : ¬ 0 < e.average := not_lt.mpr ha
    unfold RelayEngine.proceed_relays
    rw [if_neg (by simp [hs]), if_neg hnot]
    rcases scan_relays_spec e.average e.relay bm with ⟨heq, hflags⟩ | ⟨i, hi, hjs, hfi, heq⟩
    · exact Or.inl ⟨by simp [heq], by simp [heq, -List.foldl_reverse], hflags⟩
    · exact Or.inr ⟨i, hi, hjs, hfi, by simp [heq], by simp [heq]⟩
  · intro ha
    unfold RelayEngine.proceed_relays
    rw [if_neg (by simp [hs]), if_pos ha]
    rcases scan_relays_desc_spec e.average e.relay bm with ⟨heq, hflags⟩ | ⟨i, hi, hjs, hfi, heq⟩
    · exact Or.inl ⟨by simp [heq], by simp [heq, -List.foldl_reverse], hflags⟩
    · exact Or.inr ⟨i, hi, hjs, hfi, by simp [heq], by simp [heq]⟩

/-- C3 witness: on a one-relay engine with surplus average the ascending
scan turns the relay at index 0 ON; on a one-relay engine with import
average the descending scan turns it OFF. -/
theorem proceed_relays_scan_ordering_witness :
    eWitness.settle_change = 0 ∧ eWitness.average ≤ 0
    ∧ (eWitness.proceed_relays 0).1.relay = [(rWitness.proceed_relay (-600) 0).2.1]
    ∧ eWitnessDesc.settle_change = 0 ∧ (0 : Int) < eWitnessDesc.average
    ∧ (eWitnessDesc.proceed_relays 0).1.relay
        = [({ rWitness with relayIsON := true }.proceed_relay 200 0).2.1] := by
  refine ⟨rfl, by decide, ?_, rfl, by decide, ?_⟩
  · rcases (proceed_relays_scan_ordering eWitness 0 rfl).1 (by decide) with
      ⟨_, _, hflags⟩ | ⟨i, hi, _, _, hrel, _⟩
    · exact absurd (hflags 0 (by decide)) (by decide)
    · have hlen : eWitness.relay.length = 1 := by decide
      have hi0 : i = 0 := by omega
      subst hi0
      rw [hrel]
      decide
  · rcases (proceed_relays_scan_ordering eWitnessDesc 0 rfl).2 (by decide) with
      ⟨_, _, hflags⟩ | ⟨i, hi, _, _, hrel, _⟩
    · exact absurd (hflags 0 (by decide)) (by decide)
    · have hlen : eWitnessDesc.relay.length = 1 := by decide
      have hi0 : i = 0 := by omega
      subst hi0
      rw [hrel]
      decide

/-! ## C4 — settle-timer invariants -/

/-- C4: while `settle_change > 0`, a `proceed_relays` call leaves the whole
engine and the caller's bitmask untouched, regardless of the average; in any
call, either no relay changes or exactly one relay (at a single index)
changes, to the opposite ON state, and in that case `settle_change` is reset
to 60; whenever the relay list changed at all, `settle_change` is 60. -/
theorem dispatch_settle_invariants (e : RelayEngine) (bm : Nat) :
    (e.settle_change ≠ 0 → e.proceed_relays bm = (e, bm))
    ∧ ((e.proceed_relays bm).1.relay = e.relay
        ∨ ∃ i r', i < e.relay.length
            ∧ (e.proceed_relays bm).1.relay = e.relay.set i r'
            ∧ r'.relayIsON = !(e.relay.getD i relayDefault).relayIsON
            ∧ (e.proceed_relays bm).1.settle_change = 60)
    ∧ ((e.proceed_relays bm).1.relay ≠ e.relay → (e.proceed_relays bm).1.settle_change = 60) := by
  have hmain : (e.proceed_relays bm).1.relay = e.relay
      ∨ ∃ i r', i < e.relay.length
          ∧ (e.proceed_relays bm).1.relay = e.relay.set i r'
          ∧ r'.relayIsON = !(e.relay.getD i relayDefault).relayIsON
          ∧ (e.proceed_relays bm).1.settle_change = 60 := by
    unfold RelayEngine.proceed_relays
    by_cases hset : e.settle_change ≠ 0
    · rw [if_pos hset]
      exact Or.inl rfl
    · rw [if_neg hset]
      by_cases ha : 0 < e.average
      · rw [if_pos ha]
        rcases scan_relays_desc_spec e.average e.relay bm with ⟨heq, _⟩ | ⟨i, hi, _, hfi, heq⟩
        · exact Or.inl (by simp [heq])
        · refine Or.inr ⟨i, _, hi, by simp [heq], proceed_relay_flipped hfi, by simp [heq]⟩
      · rw [if_neg ha]
        rcases scan_relays_spec e.average e.relay bm with ⟨heq, _⟩ | ⟨i, hi, _, hfi, heq⟩
        · exact Or.inl (by simp [heq])
        · refine Or.inr ⟨i, _, hi, by simp [heq], proceed_relay_flipped hfi, by simp [heq]⟩
  refine ⟨fun h => ?_, hmain, fun hne => ?_⟩
  · unfold RelayEngine.proceed_relays
    rw [if_pos h]
  · rcases hmain with h | ⟨_, _, _, _, _, h60⟩
    · exact absurd h hne
    · exact h60

/-- C4 witness: a blocked call (settle 10) is an exact no-op; a call that
changes a relay resets `settle_change` to 60. -/
theorem dispatch_settle_invariants_witness :
    ({ relay := [rWitness], average := -600, settle_change := 10 } : RelayEngine).settle_change ≠ 0
    ∧ (RelayEngine.proceed_relays { relay := [rWitness], average := -600, settle_change := 10 } 5)
        = ({ relay := [rWitness], average := -600, settle_change := 10 }, 5)
    ∧ (eWitness.proceed_relays 0).1.relay ≠ eWitness.relay
    ∧ (eWitness.proceed_relays 0).1.settle_change = 60 :=
  ⟨by decide,
   (dispatch_settle_invariants { relay := [rWitness], average := -600, settle_change := 10 } 5).1
     (by decide),
   by decide,
   (dispatch_settle_invariants eWitness 0).2.2 (by decide)⟩

/-! ## C7 — half-LSB rounding bias -/

/-- If bit 5 of `x` is clear, OR-ing in the rounding bit 32 adds exactly 32. -/
theorem lor32_of_clear {x : Nat} (h : x.testBit 5 = false) : x ||| 32 = x + 32 := by
  have hblt : x % 64 < 64 := Nat.mod_lt _ (by norm_num)
  have hb5 : (x % 64).testBit 5 = false := by
    have h1 : x % 64 = x % 2 ^ 6 := by norm_num
    rw [h1, Nat.testBit_mod_two_pow]
    simp [h]
  have hb32 : x % 64 < 32 := by
    rcases Nat.lt_or_ge (x % 64) 32 with h1 | h1
    · exact h1
    · exfalso
      have h2 : (x % 64).testBit 5 = true := by
        rw [Nat.testBit_to_div_mod]
        simp only [decide_eq_true_eq]
        omega
      rw [h2] at hb5
      cases hb5
  have hx : x = 2 ^ 6 * (x / 64) + x % 64 := by omega
  have e1 : 2 ^ 6 * (x / 64) + x % 64 = 2 ^ 6 * (x / 64) ||| x % 64 :=
    Nat.mul_add_lt_is_or (by omega) (x / 64)
  have e2 : (32 : Nat) + x % 64 = 32 ||| x % 64 := by
    have h4 := Nat.mul_add_lt_is_or (i := 5) (b := x % 64) (by omega) 1
    simpa using h4
  have e3 : 2 ^ 6 * (x / 64) + (x % 64 + 32) = 2 ^ 6 * (x / 64) ||| (x % 64 + 32) :=
    Nat.mul_add_lt_is_or (by omega) (x / 64)
  calc x ||| 32 = (2 ^ 6 * (x / 64) ||| x % 64) ||| 32 := by rw [← e1, ← hx]
    _ = 2 ^ 6 * (x / 64) ||| (x % 64 ||| 32) := Nat.lor_assoc _ _ _
    _ = 2 ^ 6 * (x / 64) ||| (x % 64 + 32) := by
        rw [Nat.lor_comm (x % 64) 32, ← e2, Nat.add_comm]
    _ = 2 ^ 6 * (x / 64) + (x % 64 + 32) := e3.symm
    _ = x + 32 := by omega

/-- C7: `processSample` applied to an input equal to the current filter
offset whose rounding bit (bit 5) is clear returns exactly the rounding bit
value 32, not zero — the half-LSB rounding bias is applied. -/
theorem processSample_rounding (s : DCFilter) (x : Nat) (hx : x = s.i_DCoffset_V)
    (h5 : x.testBit 5 = false) :
    (sim_processPolarity s x).i_sampleVminusDC = 32 := by
  have hor : x ||| 32 = x + 32 := lor32_of_clear h5
  simp only [sim_processPolarity]
  rw [← hx, hor]
  have h1 : (((x + 32 : Nat) : Int) - (x : Int)).emod 4294967296 = 32 := by
    push_cast
    have h2 : ((x : Int) + 32 - x) = 32 := by ring
    rw [h2]
    decide
  rw [h1]
  decide

/-- C7 witness: at the nominal offset 32704 (bit 5 clear) the deviation is
exactly 32. -/
theorem processSample_rounding_witness :
    (32704 : Nat).testBit 5 = false
    ∧ (sim_processPolarity
        { i_DCoffset_V := 32704, l_filterDC_V := 1071513600, i_sampleVminusDC := 0 }
        32704).i_sampleVminusDC = 32 :=
  ⟨by decide,
   processSample_rounding
     { i_DCoffset_V := 32704, l_filterDC_V := 1071513600, i_sampleVminusDC := 0 }
     32704 rfl (by decide)⟩

/-! ## C10 — PinList bitmask round-trip -/

theorem decide_and_shiftLeft (bitmask p : Nat) :
    decide (bitmask &&& (1 <<< p) ≠ 0) = bitmask.testBit p := by
  rw [Nat.shiftLeft_eq, one_mul, Nat.and_two_pow]
  cases h : bitmask.testBit p
  · simp
  · simp [(Nat.two_pow_pos p).ne']

theorem popcount24_split (bitmask : Nat) :
    popcount24 bitmask
      = ((List.range 16).filter (fun p => decide (bitmask &&& (1 <<< p) ≠ 0))).length
        + ((List.range 8).filter (fun i => decide (bitmask &&& (1 <<< (16 + i)) ≠ 0))).length := by
  unfold popcount24
  rw [show (24 : Nat) = 16 + 8 from rfl, List.range_add, List.filter_append, List.length_append]
  have hp1 : (fun p => decide (bitmask &&& (1 <<< p) ≠ 0)) = (fun j => bitmask.testBit j) :=
    funext fun p => decide_and_shiftLeft bitmask p
  have hp2 : ((fun j => bitmask.testBit j) ∘ (fun i => 16 + i))
      = (fun i => decide (bitmask &&& (1 <<< (16 + i)) ≠ 0)) :=
    funext fun i => (decide_and_shiftLeft bitmask (16 + i)).symm
  rw [hp1, List.filter_map, List.length_map, hp2]

theorem localPinsLoop_eq (bitmask maxPins : Nat) :
    ∀ (rest acc : List Nat),
      acc.length + (rest.filter (fun p => decide (bitmask &&& (1 <<< p) ≠ 0))).length ≤ maxPins →
      localPinsLoop bitmask maxPins acc rest
        = acc ++ rest.filter (fun p => decide (bitmask &&& (1 <<< p) ≠ 0)) := by
  intro rest
  induction rest with
  | nil =>
    intro acc h
    simp [localPinsLoop]
  | cons p rest ih =>
    intro acc h
    by_cases hcap : acc.length < maxPins
    · by_cases hbit : bitmask &&& (1 <<< p) ≠ 0
      · simp only [localPinsLoop]
        rw [if_pos hcap, if_pos hbit]
        rw [ih (acc ++ [p]) (by simp [hbit] at h ⊢; omega)]
        simp [hbit]
      · simp only [localPinsLoop]
        rw [if_pos hcap, if_neg hbit]
        rw [ih acc (by simp [hbit] at h ⊢; omega)]
        simp [hbit]
    · simp only [localPinsLoop]
      rw [if_neg hcap]
      have hz : ((p :: rest).filter (fun p => decide (bitmask &&& (1 <<< p) ≠ 0))).length = 0 := by
        omega
      rw [List.length_eq_zero] at hz
      rw [hz, List.append_nil]

theorem remotePinsLoop_eq (bitmask maxPins : Nat) :
    ∀ (rest acc : List Nat),
      acc.length
          + (rest.filter (fun i => decide (bitmask &&& (1 <<< (16 + i)) ≠ 0))).length ≤ maxPins →
      remotePinsLoop bitmask maxPins acc rest
        = acc ++ (rest.filter (fun i => decide (bitmask &&& (1 <<< (16 + i)) ≠ 0))).map
            (fun i => 128 + i) := by
  intro rest
  induction rest with
  | nil =>
    intro acc h
    simp [remotePinsLoop]
  | cons i rest ih =>
    intro acc h
    by_cases hcap : acc.length < maxPins
    · by_cases hbit : bitmask &&& (1 <<< (16 + i)) ≠ 0
      · simp only [remotePinsLoop]
        rw [if_pos hcap, if_pos hbit]
        rw [ih (acc ++ [128 + i]) (by simp [hbit] at h ⊢; omega)]
        simp [hbit]
      · simp only [remotePinsLoop]
        rw [if_pos hcap, if_neg hbit]
        rw [ih acc (by simp [hbit] at h ⊢; omega)]
        simp [hbit]
    · simp only [remotePinsLoop]
      rw [if_neg hcap]
      have hz : ((i :: rest).filter (fun i => decide (bitmask &&& (1 <<< (16 + i)) ≠ 0))).length
          = 0 := by
        omega
      rw [List.length_eq_zero] at hz
      rw [hz, List.map_nil, List.append_nil]

theorem foldl_localBitmask_spec :
    ∀ (L : List Nat) (r : Nat), (∀ p ∈ L, p < 16) → r < 65536 →
      (L.foldl (fun result p => if p < 128 then (result ||| (1 <<< p)) % 65536 else result) r)
          < 65536
      ∧ ∀ j, ((L.foldl
            (fun result p => if p < 128 then (result ||| (1 <<< p)) % 65536 else result)
            r).testBit j = true
          ↔ (r.testBit j = true ∨ j ∈ L)) := by
  intro L
  induction L with
  | nil =>
    intro r hL hr
    exact ⟨hr, fun j => by simp⟩
  | cons p L ih =>
    intro r hL hr
    have hp : p < 16 := hL p (List.mem_cons_self p L)
    have hpw : (1 <<< p) < 2 ^ 16 := by
      rw [Nat.shiftLeft_eq, one_mul]
      exact Nat.pow_lt_pow_right (by norm_num) hp
    have hor : r ||| (1 <<< p) < 65536 := by
      have h1 := Nat.or_lt_two_pow (x := r) (y := 1 <<< p) (n := 16) (by omega) hpw
      omega
    have hstep : (if p < 128 then (r ||| (1 <<< p)) % 65536 else r) = r ||| (1 <<< p) := by
      rw [if_pos (by omega : p < 128)]
      exact Nat.mod_eq_of_lt hor
    rw [List.foldl_cons, hstep]
    obtain ⟨ihb, ihs⟩ := ih (r ||| (1 <<< p)) (fun q hq => hL q (List.mem_cons_of_mem p hq)) hor
    refine ⟨ihb, fun j => ?_⟩
    rw [ihs j]
    have hj : (r ||| (1 <<< p)).testBit j = (r.testBit j || decide (p = j)) := by
      rw [Nat.testBit_lor, Nat.shiftLeft_eq, one_mul, Nat.testBit_two_pow]
    rw [hj]
    simp only [List.mem_cons, Bool.or_eq_true, decide_eq_true_eq]
    constructor
    · rintro ((h1 | h1) | h1)
      · exact Or.inl h1
      · exact Or.inr (Or.inl h1.symm)
      · exact Or.inr (Or.inr h1)
    · rintro (h1 | h1 | h1)
      · exact Or.inl (Or.inl h1)
      · exact Or.inl (Or.inr h1.symm)
      · exact Or.inr h1

theorem foldl_localBitmask_skip :
    ∀ (M : List Nat) (r : Nat), (∀ p ∈ M, 128 ≤ p) →
      M.foldl (fun result p => if p < 128 then (result ||| (1 <<< p)) % 65536 else result) r
        = r := by
  intro M
  induction M with
  | nil => intro r _; rfl
  | cons p M ih =>
    intro r hM
    have hp : 128 ≤ p := hM p (List.mem_cons_self p M)
    have hstep : (if p < 128 then (r ||| (1 <<< p)) % 65536 else r) = r := by
      rw [if_neg (by omega : ¬p < 128)]
    rw [List.foldl_cons, hstep]
    exact ih r (fun q hq => hM q (List.mem_cons_of_mem p hq))

theorem foldl_remoteBitmask_skip :
    ∀ (L : List Nat) (r : Nat), (∀ p ∈ L, p < 16) →
      L.foldl
        (fun result p =>
          if 128 ≤ p then
            if p - 128 < 8 then (result ||| (1 <<< (p - 128))) % 256 else result
          else result) r = r := by
  intro L
  induction L with
  | nil => intro r _; rfl
  | cons p L ih =>
    intro r hL
    have hp : p < 16 := hL p (List.mem_cons_self p L)
    have hstep : (if 128 ≤ p then
        if p - 128 < 8 then (r ||| (1 <<< (p - 128))) % 256 else r
      else r) = r := by
      rw [if_neg (by omega : ¬128 ≤ p)]
    rw [List.foldl_cons, hstep]
    exact ih r (fun q hq => hL q (List.mem_cons_of_mem p hq))

theorem foldl_remoteBitmask_spec :
    ∀ (I : List Nat) (r : Nat), (∀ i ∈ I, i < 8) → r < 256 →
      ((I.map (fun i => 128 + i)).foldl
          (fun result p =>
            if 128 ≤ p then
              if p - 128 < 8 then (result ||| (1 <<< (p - 128))) % 256 else result
            else result) r) < 256
      ∧ ∀ j, (((I.map (fun i => 128 + i)).foldl
            (fun result p =>
              if 128 ≤ p then
                if p - 128 < 8 then (result ||| (1 <<< (p - 128))) % 256 else result
              else result) r).testBit j = true
          ↔ (r.testBit j = true ∨ j ∈ I)) := by
  intro I
  induction I with
  | nil =>
    intro r hI hr
    exact ⟨hr, fun j => by simp⟩
  | cons i I ih =>
    intro r hI hr
    have hi : i < 8 := hI i (List.mem_cons_self i I)
    have hpw : (1 <<< i) < 2 ^ 8 := by
      rw [Nat.shiftLeft_eq, one_mul]
      exact Nat.pow_lt_pow_right (by norm_num) hi
    have hor : r ||| (1 <<< i) < 256 := by
      have h1 := Nat.or_lt_two_pow (x := r) (y := 1 <<< i) (n := 8) (by omega) hpw
      omega
    have hstep : (if 128 ≤ 128 + i then
        if 128 + i - 128 < 8 then (r ||| (1 <<< (128 + i - 128))) % 256 else r
      else r) = r ||| (1 <<< i) := by
      rw [if_pos (by omega : 128 ≤ 128 + i)]
      rw [show 128 + i - 128 = i from by omega]
      rw [if_pos hi]
      exact Nat.mod_eq_of_lt hor
    rw [List.map_cons, List.foldl_cons, hstep]
    obtain ⟨ihb, ihs⟩ := ih (r ||| (1 <<< i)) (fun q hq => hI q (List.mem_cons_of_mem i hq)) hor
    refine ⟨ihb, fun j => ?_⟩
    rw [ihs j]
    have hj : (r ||| (1 <<< i)).testBit j = (r.testBit j || decide (i = j)) := by
      rw [Nat.testBit_lor, Nat.shiftLeft_eq, one_mul, Nat.testBit_two_pow]
    rw [hj]
    simp only [List.mem_cons, Bool.or_eq_true, decide_eq_true_eq]
    constructor
    · rintro ((h1 | h1) | h1)
      · exact Or.inl h1
      · exact Or.inr (Or.inl h1.symm)
      · exact Or.inr (Or.inr h1)
    · rintro (h1 | h1 | h1)
      · exact Or.inl (Or.inl h1)
      · exact Or.inl (Or.inr h1.symm)
      · exact Or.inr h1

theorem bool_eq_of_iff {a b : Bool} (h : a = true ↔ b = true) : a = b := by
  cases a <;> cases b <;> simp_all

/-- C10: for every bitmask whose set bits lie only in positions 0–15 (local
pins) and 16–23 (remote loads), with at most `maxPins` set bits in total,
the `PinList` built from the bitmask round-trips:
`toLocalBitmask = bitmask & 0xFFFF` and
`toRemoteBitmask = (bitmask >> 16) & 0xFF`. -/
theorem pinList_roundtrip (maxPins bitmask : Nat)
    (hbits : bitmask < 16777216) (hcount : popcount24 bitmask ≤ maxPins) :
    PinList.toLocalBitmask (PinList.ofBitmask maxPins bitmask) = bitmask % 65536
    ∧ PinList.toRemoteBitmask (PinList.ofBitmask maxPins bitmask) = (bitmask >>> 16) % 256 := by
  have hsplit := popcount24_split bitmask
  have hloc : localPinsLoop bitmask maxPins [] (List.range 16)
      = (List.range 16).filter (fun p => decide (bitmask &&& (1 <<< p) ≠ 0)) := by
    rw [localPinsLoop_eq bitmask maxPins (List.range 16) []
      (by simp only [List.length_nil]; omega)]
    simp
  have hfull : PinList.ofBitmask maxPins bitmask
      = (List.range 16).filter (fun p => decide (bitmask &&& (1 <<< p) ≠ 0))
        ++ ((List.range 8).filter (fun i => decide (bitmask &&& (1 <<< (16 + i)) ≠ 0))).map
            (fun i => 128 + i) := by
    unfold PinList.ofBitmask
    rw [hloc]
    rw [remotePinsLoop_eq bitmask maxPins (List.range 8) _ (by omega)]
  have hmem_loc : ∀ j, (j ∈ (List.range 16).filter
        (fun p => decide (bitmask &&& (1 <<< p) ≠ 0)))
      ↔ (j < 16 ∧ bitmask.testBit j = true) := by
    intro j
    rw [List.mem_filter, List.mem_range, decide_and_shiftLeft]
  have hmem_rem : ∀ j, (j ∈ (List.range 8).filter
        (fun i => decide (bitmask &&& (1 <<< (16 + i)) ≠ 0)))
      ↔ (j < 8 ∧ bitmask.testBit (16 + j) = true) := by
    intro j
    rw [List.mem_filter, List.mem_range, decide_and_shiftLeft]
  have hloc_elems : ∀ p ∈ (List.range 16).filter
      (fun p => decide (bitmask &&& (1 <<< p) ≠ 0)), p < 16 :=
    fun p hp => ((hmem_loc p).mp hp).1
  have hrem_elems : ∀ i ∈ (List.range 8).filter
      (fun i => decide (bitmask &&& (1 <<< (16 + i)) ≠ 0)), i < 8 :=
    fun i hi => ((hmem_rem i).mp hi).1
  have hmap_elems : ∀ p ∈ ((List.range 8).filter
      (fun i => decide (bitmask &&& (1 <<< (16 + i)) ≠ 0))).map (fun i => 128 + i), 128 ≤ p := by
    intro p hp
    rcases List.mem_map.mp hp with ⟨i, _, rfl⟩
    omega
  constructor
  · unfold PinList.toLocalBitmask
    rw [hfull, List.foldl_append]
    rw [foldl_localBitmask_skip _ _ hmap_elems]
    obtain ⟨_, hspec⟩ := foldl_localBitmask_spec
      ((List.range 16).filter (fun p => decide (bitmask &&& (1 <<< p) ≠ 0))) 0
      hloc_elems (by norm_num)
    apply Nat.eq_of_testBit_eq
    intro j
    have hr16 : (bitmask % 65536).testBit j = (decide (j < 16) && bitmask.testBit j) := by
      rw [show (65536 : Nat) = 2 ^ 16 from by norm_num, Nat.testBit_mod_two_pow]
    rw [hr16]
    have hj := hspec j
    rw [Nat.zero_testBit] at hj
    simp only [Bool.false_eq_true, false_or, hmem_loc j] at hj
    apply bool_eq_of_iff
    rw [hj]
    simp
  · unfold PinList.toRemoteBitmask
    rw [hfull, List.foldl_append]
    rw [foldl_remoteBitmask_skip _ _ hloc_elems]
    obtain ⟨_, hspec⟩ := foldl_remoteBitmask_spec
      ((List.range 8).filter (fun i => decide (bitmask &&& (1 <<< (16 + i)) ≠ 0))) 0
      hrem_elems (by norm_num)
    apply Nat.eq_of_testBit_eq
    intro j
    have hr8 : ((bitmask >>> 16) % 256).testBit j = (decide (j < 8) && bitmask.testBit (16 + j)) := by
      rw [show (256 : Nat) = 2 ^ 8 from by norm_num, Nat.testBit_mod_two_pow,
        Nat.testBit_shiftRight]
    rw [hr8]
    have hj := hspec j
    rw [Nat.zero_testBit] at hj
    simp only [Bool.false_eq_true, false_or, hmem_rem j] at hj
    apply bool_eq_of_iff
    rw [hj]
    simp

/-- C10 witness: bitmask with bits 0, 2 (local) and 17 (remote 1) set,
popcount 3 within a capacity of 10, round-trips to local mask 5 and remote
mask 2. -/
theorem pinList_roundtrip_witness :
    (131077 : Nat) < 16777216 ∧ popcount24 131077 ≤ 10
    ∧ PinList.toLocalBitmask (PinList.ofBitmask 10 131077) = 131077 % 65536
    ∧ PinList.toRemoteBitmask (PinList.ofBitmask 10 131077) = (131077 >>> 16) % 256 :=
  ⟨by decide, by decide, (pinList_roundtrip 10 131077 (by decide) (by decide)).1,
   (pinList_roundtrip 10 131077 (by decide) (by decide)).2⟩
